import Mathlib

/-!
Verification of the parallel action executor of `cmd/src/actions_exec_backend.go`.

The pure state of the executor is the status map `repos`; its mutators
`updateRepoStatus`, `enqueueRepo` and its reader `allPatches` are translated
below as functions on an association list.  The concurrent parts (`start`,
`wait`, the bounded concurrency primitive `parallel.Run` and the per-repository
operation `do`) are modelled further down as a small-step transition system.
-/

/-- Modelled from the spec: `ActionRepo` is an opaque, hashable identifier
naming a target repository (its Go struct definition is not part of the core
sources); modelled as a string key with decidable equality. -/
abbrev ActionRepo := String

/-- Modelled from the spec: Go `time.Time` values, where `0` plays the role of
the zero time (Go's `IsZero`).  `time.Now()` never returns the zero time. -/
abbrev GoTime := Nat

/-- Modelled from the spec: Go `error` values; `none` is Go's `nil` error. -/
abbrev GoError := String

/-- Modelled from the spec: `PatchInput` is a value describing a produced diff
for one repository; it is equality-comparable and its all-empty Go zero value
denotes "no patch produced". -/
structure PatchInput where
  repository : String
  patch : String
deriving DecidableEq, Repr

/-- Modelled from the spec: the Go zero value of `PatchInput`. -/
def PatchInput.zero : PatchInput := { repository := "", patch := "" }

/-- Modelled from the spec: `ActionRepoStatus` is the per-repository snapshot
record, with exactly the six fields the executor reads and writes in
`updateRepoStatus`. -/
structure ActionRepoStatus where
  LogFile : String
  EnqueuedAt : GoTime
  StartedAt : GoTime
  FinishedAt : GoTime
  Patch : PatchInput
  Err : Option GoError
deriving DecidableEq, Repr

/-- The Go zero value of `ActionRepoStatus`, the value a map read returns for
an absent key. -/
def zeroStatus : ActionRepoStatus :=
  { LogFile := "", EnqueuedAt := 0, StartedAt := 0, FinishedAt := 0,
    Patch := PatchInput.zero, Err := none }

/-- The status map `x.repos`, modelled as an association list (created and
updated only through `setStatus`, so keys stay unique as in a Go map). -/
abbrev Repos := List (ActionRepo × ActionRepoStatus)

/-- Reading `x.repos[repo]`: the first binding for the key, or the zero value
when the key is absent (Go map read semantics). -/
def getStatus : Repos → ActionRepo → ActionRepoStatus
  | [], _ => zeroStatus
  | (r', s') :: rest, r => if r' = r then s' else getStatus rest r

/-- Writing `x.repos[repo] = status`: replace the binding in place, or append
a new one. -/
def setStatus : Repos → ActionRepo → ActionRepoStatus → Repos
  | [], r, s => [(r, s)]
  | (r', s') :: rest, r, s =>
      if r' = r then (r, s) :: rest else (r', s') :: setStatus rest r s

/-- The delta-merge body of `updateRepoStatus` (actions_exec_backend.go lines
60 to 79): every empty or zero field of the incoming `status` is replaced by
the previously stored field before storing. -/
def mergeStatus (prev status : ActionRepoStatus) : ActionRepoStatus :=
  { LogFile := if status.LogFile = "" then prev.LogFile else status.LogFile
    EnqueuedAt := if status.EnqueuedAt = 0 then prev.EnqueuedAt else status.EnqueuedAt
    StartedAt := if status.StartedAt = 0 then prev.StartedAt else status.StartedAt
    FinishedAt := if status.FinishedAt = 0 then prev.FinishedAt else status.FinishedAt
    Patch := if status.Patch = PatchInput.zero then prev.Patch else status.Patch
    Err := if status.Err = none then prev.Err else status.Err }

/-- The effect of `updateRepoStatus(repo, status)` (lines 56 to 86) on the
status map: read the previous status, delta-merge, store.  The observer
callback of lines 83 to 85 is modelled separately by
`updateRepoStatusTrace`. -/
def updateRepoStatus (m : Repos) (repo : ActionRepo) (status : ActionRepoStatus) : Repos :=
  setStatus m repo (mergeStatus (getStatus m repo) status)

/-- `enqueueRepo(repo)` (lines 52 to 54): an `updateRepoStatus` whose incoming
status sets only `EnqueuedAt` to `time.Now()`, passed here as the argument
`now`. -/
def enqueueRepo (m : Repos) (repo : ActionRepo) (now : GoTime) : Repos :=
  updateRepoStatus m repo { zeroStatus with EnqueuedAt := now }

/-- `allPatches()` (lines 88 to 98): iterate the map and append the patch of
every entry whose patch is not the zero `PatchInput` and whose error is nil. -/
def allPatches (m : Repos) : List PatchInput :=
  m.foldl
    (fun patches entry =>
      if entry.2.Patch ≠ PatchInput.zero ∧ entry.2.Err = none
      then patches ++ [entry.2.Patch] else patches)
    []

/-- A sequence of `updateRepoStatus` calls for the same repository, applied in
call order. -/
def applyUpdates (m : Repos) (repo : ActionRepo) (updates : List ActionRepoStatus) : Repos :=
  updates.foldl (fun acc u => updateRepoStatus acc repo u) m

/-- Written from the spec's words for comparison: the last value in `xs` that
differs from the zero value `z`, or `init` when every element is `z`. -/
def lastNonZero {α : Type} [DecidableEq α] (z : α) (init : α) (xs : List α) : α :=
  xs.foldl (fun acc x => if x = z then acc else x) init

/-- Written from the spec's words for comparison: the field-wise merge of a
sequence of incoming statuses in call order, where for each field the last
non-empty incoming value wins and otherwise the initial stored value is
kept. -/
def mergeSeqSpec (init : ActionRepoStatus) (updates : List ActionRepoStatus) : ActionRepoStatus :=
  { LogFile := lastNonZero "" init.LogFile (updates.map ActionRepoStatus.LogFile)
    EnqueuedAt := lastNonZero 0 init.EnqueuedAt (updates.map ActionRepoStatus.EnqueuedAt)
    StartedAt := lastNonZero 0 init.StartedAt (updates.map ActionRepoStatus.StartedAt)
    FinishedAt := lastNonZero 0 init.FinishedAt (updates.map ActionRepoStatus.FinishedAt)
    Patch := lastNonZero PatchInput.zero init.Patch (updates.map ActionRepoStatus.Patch)
    Err := lastNonZero none init.Err (updates.map ActionRepoStatus.Err) }

/-- Written from the spec's words for comparison: the patches of exactly those
map entries whose stored status has a nil error and a non-zero patch. -/
def specPatches (m : Repos) : List PatchInput :=
  (m.filter fun entry => decide (entry.2.Err = none ∧ entry.2.Patch ≠ PatchInput.zero)).map
    fun entry => entry.2.Patch

/-- An event of one `updateRepoStatus` call that is visible to the lock and to
the observer. -/
inductive UpdEvent where
  | lockEv
  | storeEv (repo : ActionRepo) (st : ActionRepoStatus)
  | invokeEv (m : Repos)
  | unlockEv
deriving DecidableEq, Repr

/-- The events of one `updateRepoStatus(repo, status)` call (lines 56 to 86)
in program order: the Lock of line 57, the store of the merged status of line
81, the synchronous observer invocation with the entire current map of lines
83 to 85 when an observer is configured, and the Unlock deferred on line 58,
which runs when the function returns, hence after the observer invocation. -/
def updateRepoStatusTrace (m : Repos) (repo : ActionRepo) (status : ActionRepoStatus)
    (hasObserver : Bool) : List UpdEvent × Repos :=
  ([UpdEvent.lockEv, UpdEvent.storeEv repo (mergeStatus (getStatus m repo) status)] ++
    (if hasObserver then [UpdEvent.invokeEv (updateRepoStatus m repo status)] else []) ++
    [UpdEvent.unlockEv], updateRepoStatus m repo status)

/-- Whether an event is an observer invocation. -/
def isInvokeEv : UpdEvent → Bool
  | UpdEvent.invokeEv _ => true
  | _ => false

/-- Whether some observer invocation occurs in the trace. -/
def hasInvokeEv (tr : List UpdEvent) : Bool := tr.any isInvokeEv

/-- Whether some unlock event occurs strictly before some observer
invocation in the trace. -/
def unlockBeforeInvoke : List UpdEvent → Bool
  | [] => false
  | UpdEvent.unlockEv :: rest => hasInvokeEv rest || unlockBeforeInvoke rest
  | _ :: rest => unlockBeforeInvoke rest

/-- The phase of one worker goroutine of `start` (lines 130 to 137): `busy`
while `do` runs, `reporting e` when `do` returned the error `e` and
`par.Error` has not run yet, `releasing` when only the deferred `par.Release`
remains, `finished` afterwards. -/
inductive WPhase where
  | busy
  | reporting (e : GoError)
  | releasing
  | finished
deriving DecidableEq, Repr

/-- Modelled from the spec: the state of the bounded concurrency primitive
`parallel.Run` — its permit limit, the number of outstanding permits, and the
first error recorded via `Error`. -/
structure ParRun where
  limit : Nat
  outstanding : Nat
  firstErr : Option GoError
deriving DecidableEq, Repr

/-- The program counter of the caller's goroutine through `start` (lines 100
to 141) and `wait` (lines 143 to 148): dispatching the snapshotted repository
keys, past `close(doneEnqueuing)`, blocked inside `par.Wait`, or returned from
`wait` with the aggregated error. -/
inductive MainPC where
  | dispatching (pending : List ActionRepo)
  | enqDone
  | inWait
  | waitReturned (err : Option GoError)
deriving DecidableEq, Repr

/-- A configuration of the executor run: the status map, the concurrency
primitive, the spawned workers with their phases, the two completion channels
(closed or not), and the caller's program counter.  The periodic sampler
goroutine of lines 101 to 117 only reads state and is omitted. -/
structure ExecState where
  repos : Repos
  par : ParRun
  workers : List (ActionRepo × WPhase)
  doneEnqueuing : Bool
  doneCh : Bool
  main : MainPC
deriving DecidableEq, Repr

/-- The keys of the status map, in entry order (Go map iteration order is
arbitrary; one order is fixed here). -/
def keysOf (m : Repos) : List ActionRepo := m.map Prod.fst

/-- The repository keys still to be dispatched. -/
def pendingOf : MainPC → List ActionRepo
  | MainPC.dispatching p => p
  | _ => []

/-- Whether the caller has passed `close(x.doneEnqueuing)` of line 140. -/
def isPastDispatch : MainPC → Bool
  | MainPC.dispatching _ => false
  | _ => true

/-- The worker phase entered when `do` returns: straight to the deferred
release on a nil error, otherwise to reporting the error to `par.Error`. -/
def nextPhase : Option GoError → WPhase
  | none => WPhase.releasing
  | some e => WPhase.reporting e

/-- The configuration at entry of the dispatch loop of line 127: the executor
fields of `newActionExecutor` (lines 35 to 50), a status map `m0` filled by
earlier `enqueueRepo` calls, and the key snapshot of lines 119 to 124. -/
def startState (m0 : Repos) (N : Nat) : ExecState :=
  { repos := m0
    par := { limit := N, outstanding := 0, firstErr := none }
    workers := []
    doneEnqueuing := false
    doneCh := false
    main := MainPC.dispatching (keysOf m0) }

/-- One interleaved step of the run, parameterized by the per-repository
operation `do`, modelled from the spec as an opaque function `doRes` from a
repository to its terminal error result (`none` means success).  The
`parallel.Run` operations are modelled from the spec contract: `Acquire`
blocks until fewer than `limit` permits are outstanding, `Error` records the
first error without blocking others, `Release` returns a permit, `Wait`
blocks until all permits are released. -/
inductive Step (doRes : ActionRepo → Option GoError) : ExecState → ExecState → Prop where
  | dispatch : ∀ (s : ExecState) (r : ActionRepo) (rest : List ActionRepo),
      s.main = MainPC.dispatching (r :: rest) →
      s.par.outstanding < s.par.limit →
      Step doRes s { s with
        par := { s.par with outstanding := s.par.outstanding + 1 }
        workers := s.workers ++ [(r, WPhase.busy)]
        main := MainPC.dispatching rest }
  | closeEnq : ∀ (s : ExecState),
      s.main = MainPC.dispatching [] →
      Step doRes s { s with doneEnqueuing := true, main := MainPC.enqDone }
  | callWait : ∀ (s : ExecState),
      s.main = MainPC.enqDone →
      s.doneEnqueuing = true →
      Step doRes s { s with main := MainPC.inWait }
  | finishWait : ∀ (s : ExecState),
      s.main = MainPC.inWait →
      s.par.outstanding = 0 →
      Step doRes s { s with main := MainPC.waitReturned s.par.firstErr, doneCh := true }
  | workerDo : ∀ (s : ExecState) (l rr : List (ActionRepo × WPhase)) (r : ActionRepo),
      s.workers = l ++ (r, WPhase.busy) :: rr →
      Step doRes s { s with workers := l ++ (r, nextPhase (doRes r)) :: rr }
  | workerReport : ∀ (s : ExecState) (l rr : List (ActionRepo × WPhase)) (r : ActionRepo) (e : GoError),
      s.workers = l ++ (r, WPhase.reporting e) :: rr →
      Step doRes s { s with
        workers := l ++ (r, WPhase.releasing) :: rr
        par := { s.par with firstErr := some (s.par.firstErr.getD e) } }
  | workerRelease : ∀ (s : ExecState) (l rr : List (ActionRepo × WPhase)) (r : ActionRepo),
      s.workers = l ++ (r, WPhase.releasing) :: rr →
      Step doRes s { s with
        workers := l ++ (r, WPhase.finished) :: rr
        par := { s.par with outstanding := s.par.outstanding - 1 } }

/-- A step of the run interleaved with external `enqueueRepo` calls issued by
other goroutines after the key snapshot was taken. -/
inductive StepE (doRes : ActionRepo → Option GoError) : ExecState → ExecState → Prop where
  | core : ∀ {s s' : ExecState}, Step doRes s s' → StepE doRes s s'
  | enqueue : ∀ (s : ExecState) (r : ActionRepo) (now : GoTime),
      StepE doRes s { s with repos := enqueueRepo s.repos r now }

/-- Reachability along run steps. -/
def Reaches (doRes : ActionRepo → Option GoError) : ExecState → ExecState → Prop :=
  Relation.ReflTransGen (Step doRes)

/-- Reachability along run steps interleaved with external enqueues. -/
def ReachesE (doRes : ActionRepo → Option GoError) : ExecState → ExecState → Prop :=
  Relation.ReflTransGen (StepE doRes)

/-- The number of workers still holding a permit. -/
def countActive (ws : List (ActionRepo × WPhase)) : Nat :=
  ws.countP fun w => decide (w.2 ≠ WPhase.finished)

/-- The number of workers whose `do` operation is currently running. -/
def countBusy (ws : List (ActionRepo × WPhase)) : Nat :=
  ws.countP fun w => decide (w.2 = WPhase.busy)

/-- A worker that has already passed its `par.Error` call with a non-nil
error. -/
def ReportedW (doRes : ActionRepo → Option GoError) (w : ActionRepo × WPhase) : Prop :=
  (w.2 = WPhase.releasing ∨ w.2 = WPhase.finished) ∧ doRes w.1 ≠ none

/-- The run invariant tying workers, permits, channels and the recorded first
error together. -/
structure RunInv (m0 : Repos) (N : Nat) (doRes : ActionRepo → Option GoError)
    (s : ExecState) : Prop where
  limit_eq : s.par.limit = N
  snap : s.workers.map Prod.fst ++ pendingOf s.main = keysOf m0
  act : countActive s.workers = s.par.outstanding
  out_le : s.par.outstanding ≤ N
  enq : s.doneEnqueuing = isPastDispatch s.main
  rep_ok : ∀ w ∈ s.workers, ∀ e, w.2 = WPhase.reporting e → doRes w.1 = some e
  err_none : s.par.firstErr = none → ∀ w ∈ s.workers, ¬ ReportedW doRes w
  err_some : ∀ e, s.par.firstErr = some e → ∃ r ∈ s.workers.map Prod.fst, doRes r = some e
  wret : ∀ err, s.main = MainPC.waitReturned err →
    err = s.par.firstErr ∧ s.par.outstanding = 0 ∧ s.doneCh = true

/-- Weight of a worker phase, for termination. -/
def phaseW : WPhase → Nat
  | WPhase.busy => 3
  | WPhase.reporting _ => 2
  | WPhase.releasing => 1
  | WPhase.finished => 0

/-- Weight of the caller's program counter, for termination. -/
def mainW : MainPC → Nat
  | MainPC.dispatching p => 4 * p.length + 3
  | MainPC.enqDone => 2
  | MainPC.inWait => 1
  | MainPC.waitReturned _ => 0

/-- A measure that strictly decreases on every run step. -/
def stepMeasure (s : ExecState) : Nat :=
  mainW s.main + (s.workers.map fun w => phaseW w.2).sum

/-- The channel and primitive state that `wait()` touches. -/
structure WaitView where
  doneEnqueuingClosed : Bool
  parOutstanding : Nat
  parFirstErr : Option GoError
  doneClosed : Bool
deriving DecidableEq, Repr

/-- Outcome of one `wait()` call: it blocks, it panics, or it returns an
error value and leaves a new state. -/
inductive WaitOutcome where
  | blocks
  | panics
  | returns (err : Option GoError) (v : WaitView)
deriving DecidableEq, Repr

/-- The body of `wait()` (lines 143 to 148) on the state it touches: the
receive on `doneEnqueuing` blocks unless that channel is closed; `par.Wait`
(modelled from the spec contract) blocks until all acquired permits are
released and yields the first recorded error; `close(x.done)` panics when the
channel is already closed, by Go's channel close semantics. -/
def waitFn (v : WaitView) : WaitOutcome :=
  if v.doneEnqueuingClosed = false then WaitOutcome.blocks
  else if v.parOutstanding ≠ 0 then WaitOutcome.blocks
  else if v.doneClosed then WaitOutcome.panics
  else WaitOutcome.returns v.parFirstErr { v with doneClosed := true }

/-- The channel and primitive state of a freshly constructed executor
(`newActionExecutor`, lines 35 to 50): both channels open, no permits
outstanding, no recorded error — independent of how many repositories are
enqueued, since `enqueueRepo` only touches the status map. -/
def newExecutorWaitView : WaitView :=
  { doneEnqueuingClosed := false, parOutstanding := 0, parFirstErr := none
    doneClosed := false }

/-- A per-repository operation in which every repository succeeds. -/
def doNone : ActionRepo → Option GoError := fun _ => none

/-- A per-repository operation in which repository a fails and every other
repository succeeds. -/
def doAB : ActionRepo → Option GoError := fun r => if r = "a" then some "boom" else none

/-- A one-repository status map. -/
def m1 : Repos := [("a", zeroStatus)]

/-- A two-repository status map. -/
def m2 : Repos := [("a", zeroStatus), ("b", zeroStatus)]

/-- The terminal configuration of the run of `m1` under `doNone` with
parallelism 1. -/
def sfin1 : ExecState :=
  { repos := m1
    par := { limit := 1, outstanding := 0, firstErr := none }
    workers := [("a", WPhase.finished)]
    doneEnqueuing := true
    doneCh := true
    main := MainPC.waitReturned none }

/-- The status map of `m1` after repository c is enqueued during the run. -/
def m1c : Repos := enqueueRepo m1 "c" 7

/-- The terminal configuration of the run of `m1` under `doNone` with
parallelism 1 in which repository c was enqueued after the snapshot. -/
def sfin1c : ExecState := { sfin1 with repos := m1c }

/-- The terminal configuration of the run of `m2` under `doAB` with
parallelism 2. -/
def sfin2 : ExecState :=
  { repos := m2
    par := { limit := 2, outstanding := 0, firstErr := some "boom" }
    workers := [("a", WPhase.finished), ("b", WPhase.finished)]
    doneEnqueuing := true
    doneCh := true
    main := MainPC.waitReturned (some "boom") }

/-- The terminal configuration of a run with no repositories enqueued, for
parallelism limit N. -/
def sfinEmpty (N : Nat) : ExecState :=
  { repos := []
    par := { limit := N, outstanding := 0, firstErr := none }
    workers := []
    doneEnqueuing := true
    doneCh := true
    main := MainPC.waitReturned none }

lemma getStatus_setStatus_self (m : Repos) (r : ActionRepo) (s : ActionRepoStatus) :
    getStatus (setStatus m r s) r = s := by
  induction m with
  | nil => simp [setStatus, getStatus]
  | cons e rest ih =>
      obtain ⟨r', s'⟩ := e
      by_cases h : r' = r
      · simp [setStatus, getStatus, h]
      · simp [setStatus, getStatus, h, ih]

lemma getStatus_updateRepoStatus_self (m : Repos) (r : ActionRepo) (u : ActionRepoStatus) :
    getStatus (updateRepoStatus m r u) r = mergeStatus (getStatus m r) u := by
  simp [updateRepoStatus, getStatus_setStatus_self]

lemma mergeSeqSpec_nil (init : ActionRepoStatus) : mergeSeqSpec init [] = init := by
  cases init
  rfl

lemma mergeSeqSpec_cons (init u : ActionRepoStatus) (updates : List ActionRepoStatus) :
    mergeSeqSpec init (u :: updates) = mergeSeqSpec (mergeStatus init u) updates := by
  simp only [mergeSeqSpec, mergeStatus, lastNonZero, List.map_cons, List.foldl_cons]

lemma applyUpdates_getStatus (updates : List ActionRepoStatus) (m : Repos) (repo : ActionRepo) :
    getStatus (applyUpdates m repo updates) repo = mergeSeqSpec (getStatus m repo) updates := by
  induction updates generalizing m with
  | nil => simp [applyUpdates, mergeSeqSpec_nil]
  | cons u rest ih =>
      show getStatus (applyUpdates (updateRepoStatus m repo u) repo rest) repo = _
      rw [mergeSeqSpec_cons, ← getStatus_updateRepoStatus_self]
      exact ih _

lemma allPatches_foldl (m : Repos) (acc : List PatchInput) :
    m.foldl
      (fun patches entry =>
        if entry.2.Patch ≠ PatchInput.zero ∧ entry.2.Err = none
        then patches ++ [entry.2.Patch] else patches)
      acc = acc ++ specPatches m := by
  induction m generalizing acc with
  | nil => simp [specPatches]
  | cons e rest ih =>
      by_cases hp : e.2.Patch = PatchInput.zero <;>
        by_cases he : e.2.Err = none <;>
          simp [specPatches, hp, he, ih, List.filter_cons]

lemma lastNonZero_ne {α : Type} [DecidableEq α] (z init : α) (xs : List α)
    (h : init ≠ z) : lastNonZero z init xs ≠ z := by
  induction xs generalizing init with
  | nil => exact h
  | cons x rest ih =>
      by_cases hx : x = z
      · simpa [lastNonZero, hx] using ih init h
      · simpa [lastNonZero, hx] using ih x hx

/-- C1: for every repository and every finite sequence of `updateRepoStatus`
calls for that repository, the status finally stored in the map equals the
field-wise merge of the sequence in call order, in which for each field the
last non-empty incoming value wins and an empty incoming value preserves the
previously stored value; and no call ever erases a previously set field: each
field of the stored result is empty exactly when the previously stored field
and the incoming field are both empty. -/
theorem updateRepoStatus_last_nonempty_wins :
    ∀ (m0 : Repos) (repo : ActionRepo) (updates : List ActionRepoStatus),
      getStatus (applyUpdates m0 repo updates) repo = mergeSeqSpec (getStatus m0 repo) updates ∧
      ∀ u : ActionRepoStatus,
        ((getStatus (updateRepoStatus m0 repo u) repo).LogFile = "" ↔
          ((getStatus m0 repo).LogFile = "" ∧ u.LogFile = "")) ∧
        ((getStatus (updateRepoStatus m0 repo u) repo).EnqueuedAt = 0 ↔
          ((getStatus m0 repo).EnqueuedAt = 0 ∧ u.EnqueuedAt = 0)) ∧
        ((getStatus (updateRepoStatus m0 repo u) repo).StartedAt = 0 ↔
          ((getStatus m0 repo).StartedAt = 0 ∧ u.StartedAt = 0)) ∧
        ((getStatus (updateRepoStatus m0 repo u) repo).FinishedAt = 0 ↔
          ((getStatus m0 repo).FinishedAt = 0 ∧ u.FinishedAt = 0)) ∧
        ((getStatus (updateRepoStatus m0 repo u) repo).Patch = PatchInput.zero ↔
          ((getStatus m0 repo).Patch = PatchInput.zero ∧ u.Patch = PatchInput.zero)) ∧
        ((getStatus (updateRepoStatus m0 repo u) repo).Err = none ↔
          ((getStatus m0 repo).Err = none ∧ u.Err = none)) := by
  intro m0 repo updates
  refine ⟨applyUpdates_getStatus updates m0 repo, ?_⟩
  intro u
  rw [getStatus_updateRepoStatus_self]
  refine ⟨?_, ?_, ?_, ?_, ?_, ?_⟩
  · by_cases hu : u.LogFile = "" <;> simp [mergeStatus, hu]
  · by_cases hu : u.EnqueuedAt = 0 <;> simp [mergeStatus, hu]
  · by_cases hu : u.StartedAt = 0 <;> simp [mergeStatus, hu]
  · by_cases hu : u.FinishedAt = 0 <;> simp [mergeStatus, hu]
  · by_cases hu : u.Patch = PatchInput.zero <;> simp [mergeStatus, hu]
  · by_cases hu : u.Err = none <;> simp [mergeStatus, hu]

/-- C2: `allPatches` returns exactly the patches of those map entries whose
stored status has a nil error and a patch different from the zero
`PatchInput` — as the same list, hence the same multiset (the order carries
no guarantee) — and a patch is in the result exactly when some stored entry
with nil error and non-zero patch holds it. -/
theorem allPatches_exactly_successes :
    ∀ m : Repos,
      allPatches m = specPatches m ∧
      ∀ p : PatchInput,
        (p ∈ allPatches m ↔
          ∃ entry, entry ∈ m ∧ entry.2.Err = none ∧ entry.2.Patch ≠ PatchInput.zero ∧
            entry.2.Patch = p) := by
  intro m
  have h : allPatches m = specPatches m := by
    simpa [allPatches] using allPatches_foldl m []
  refine ⟨h, ?_⟩
  intro p
  rw [h]
  simp only [specPatches, List.mem_map, List.mem_filter, decide_eq_true_eq]
  constructor
  · rintro ⟨entry, ⟨hm, he, hp⟩, hep⟩
    exact ⟨entry, hm, he, hp, hep⟩
  · rintro ⟨entry, hm, he, hp, hep⟩
    exact ⟨entry, ⟨hm, he, hp⟩, hep⟩

/-- C8 counterexample: a second `enqueueRepo` call before start does not
leave the stored status equal to the status after the first call — the
enqueued timestamp is overwritten by the second call's later `time.Now`
value. -/
theorem enqueueRepo_second_call_changes_status :
    getStatus (enqueueRepo (enqueueRepo [] "r" 1) "r" 2) "r" ≠
      getStatus (enqueueRepo [] "r" 1) "r" := by decide

/-- C8 amended: `enqueueRepo` records an initial status in which only the
enqueued timestamp is set; a second call for the same repository before start
delta-merges into the existing record, overwriting only the enqueued
timestamp with its own `time.Now` value and preserving every other field, so
the stored status equals the status after the first call exactly when both
calls observe the same timestamp. -/
theorem enqueueRepo_initial_and_remerge (m : Repos) (repo : ActionRepo)
    (now now' : GoTime) (h0 : getStatus m repo = zeroStatus) (h' : now' ≠ 0) :
    getStatus (enqueueRepo m repo now) repo = { zeroStatus with EnqueuedAt := now } ∧
    getStatus (enqueueRepo (enqueueRepo m repo now) repo now') repo =
      { getStatus (enqueueRepo m repo now) repo with EnqueuedAt := now' } ∧
    (now' = now →
      getStatus (enqueueRepo (enqueueRepo m repo now) repo now') repo =
        getStatus (enqueueRepo m repo now) repo) := by
  have h1 : getStatus (enqueueRepo m repo now) repo = { zeroStatus with EnqueuedAt := now } := by
    rw [enqueueRepo, getStatus_updateRepoStatus_self, h0]
    by_cases hn : now = 0 <;> simp [mergeStatus, zeroStatus, hn]
  have h2 : getStatus (enqueueRepo (enqueueRepo m repo now) repo now') repo =
      { getStatus (enqueueRepo m repo now) repo with EnqueuedAt := now' } := by
    conv_lhs => rw [enqueueRepo, getStatus_updateRepoStatus_self, h1]
    rw [h1]
    simp [mergeStatus, zeroStatus, h']
  refine ⟨h1, h2, ?_⟩
  intro he
  rw [h2, h1, he]

/-- C8 amended witness at the concrete input of the counterexample's shape:
empty map, timestamps 1 and 3. -/
theorem enqueueRepo_initial_and_remerge_witness :
    getStatus (enqueueRepo [] "r" 1) "r" = { zeroStatus with EnqueuedAt := 1 } ∧
    getStatus (enqueueRepo (enqueueRepo [] "r" 1) "r" 3) "r" =
      { getStatus (enqueueRepo [] "r" 1) "r" with EnqueuedAt := 3 } :=
  And.intro (enqueueRepo_initial_and_remerge [] "r" 1 3 (by decide) (by decide)).1
    (enqueueRepo_initial_and_remerge [] "r" 1 3 (by decide) (by decide)).2.1

/-- C9: once a repository's stored status carries a non-nil `Err`, every
subsequent sequence of `updateRepoStatus` calls for it leaves `Err` non-nil;
an incoming nil `Err` preserves the stored error unchanged, and an incoming
non-nil error replaces it, so an error is never cleared back to nil. -/
theorem err_never_cleared (m : Repos) (repo : ActionRepo)
    (updates : List ActionRepoStatus) (u : ActionRepoStatus)
    (h : (getStatus m repo).Err ≠ none) :
    (getStatus (applyUpdates m repo updates) repo).Err ≠ none ∧
    (u.Err = none →
      (getStatus (updateRepoStatus m repo u) repo).Err = (getStatus m repo).Err) ∧
    (∀ e, u.Err = some e → (getStatus (updateRepoStatus m repo u) repo).Err = some e) := by
  refine ⟨?_, ?_, ?_⟩
  · rw [applyUpdates_getStatus]
    show lastNonZero none (getStatus m repo).Err (updates.map ActionRepoStatus.Err) ≠ none
    exact lastNonZero_ne none (getStatus m repo).Err _ h
  · intro hu
    rw [getStatus_updateRepoStatus_self]
    simp [mergeStatus, hu]
  · intro e hu
    rw [getStatus_updateRepoStatus_self]
    simp [mergeStatus, hu]

/-- C9 witness: a map storing an error for repository r, one further nil-Err
update. -/
theorem err_never_cleared_witness :
    (getStatus (applyUpdates [("r", { zeroStatus with Err := some "e" })] "r" [zeroStatus])
      "r").Err ≠ none :=
  (err_never_cleared [("r", { zeroStatus with Err := some "e" })] "r" [zeroStatus] zeroStatus
    (by decide)).1

/-- C6 counterexample: for a concrete observer-configured call the trace
contains an observer invocation, but no unlock event precedes it — the
observer runs before the deferred unlock, that is while the lock is still
held, contradicting the claim that the observer is invoked after the lock is
released. -/
theorem observer_invoked_before_unlock :
    hasInvokeEv (updateRepoStatusTrace [] "r" zeroStatus true).1 = true ∧
    unlockBeforeInvoke (updateRepoStatusTrace [] "r" zeroStatus true).1 = false := by
  decide

/-- C6 amended: for every `updateRepoStatus` call with an observer
configured, after the merged status is stored the observer is invoked
synchronously exactly once with the entire current status map (not just the
changed entry), and the lock is released only after the observer returns;
when no observer is configured, no callback occurs. -/
theorem observer_invocation_exact (m : Repos) (repo : ActionRepo) (status : ActionRepoStatus) :
    (updateRepoStatusTrace m repo status true).1 =
      [UpdEvent.lockEv, UpdEvent.storeEv repo (mergeStatus (getStatus m repo) status),
        UpdEvent.invokeEv (updateRepoStatus m repo status), UpdEvent.unlockEv] ∧
    (updateRepoStatusTrace m repo status false).1 =
      [UpdEvent.lockEv, UpdEvent.storeEv repo (mergeStatus (getStatus m repo) status),
        UpdEvent.unlockEv] ∧
    (updateRepoStatusTrace m repo status true).1.countP isInvokeEv = 1 ∧
    (updateRepoStatusTrace m repo status false).1.countP isInvokeEv = 0 ∧
    unlockBeforeInvoke (updateRepoStatusTrace m repo status true).1 = false := by
  refine ⟨rfl, rfl, ?_, ?_, ?_⟩ <;> rfl

lemma countActive_split (l rr : List (ActionRepo × WPhase)) (r : ActionRepo) (ph : WPhase) :
    countActive (l ++ (r, ph) :: rr) =
      countActive l + countActive rr + (if ph = WPhase.finished then 0 else 1) := by
  by_cases h : ph = WPhase.finished
  · simp [countActive, List.countP_append, List.countP_cons, h]
  · simp [countActive, List.countP_append, List.countP_cons, h]
    omega

lemma runInv_init (m0 : Repos) (N : Nat) (doRes : ActionRepo → Option GoError) :
    RunInv m0 N doRes (startState m0 N) := by
  refine ⟨rfl, ?_, rfl, Nat.zero_le N, rfl, ?_, ?_, ?_, ?_⟩
  · simp [startState, pendingOf]
  · intro w hw
    simp [startState] at hw
  · intro _ w hw
    simp [startState] at hw
  · intro e he
    simp [startState] at he
  · intro err hm
    simp [startState] at hm

lemma runInv_step (m0 : Repos) (N : Nat) (doRes : ActionRepo → Option GoError)
    {s s' : ExecState} (inv : RunInv m0 N doRes s) (hs : Step doRes s s') :
    RunInv m0 N doRes s' := by
  cases hs with
  | dispatch r rest hmain hlt =>
      have hsnap := inv.snap
      rw [hmain] at hsnap
      simp only [pendingOf] at hsnap
      refine ⟨inv.limit_eq, ?_, ?_, ?_, ?_, ?_, ?_, ?_, ?_⟩
      · simpa [pendingOf] using hsnap
      · show countActive (s.workers ++ [(r, WPhase.busy)]) = s.par.outstanding + 1
        have h2 : countActive (s.workers ++ [(r, WPhase.busy)]) = countActive s.workers + 1 := by
          simp [countActive, List.countP_append]
        rw [h2, inv.act]
      · show s.par.outstanding + 1 ≤ N
        have hN := inv.limit_eq
        omega
      · have he := inv.enq
        rw [hmain] at he
        simpa [isPastDispatch] using he
      · intro w hw e hrep
        rcases List.mem_append.mp hw with h1 | h1
        · exact inv.rep_ok w h1 e hrep
        · simp only [List.mem_singleton] at h1
          subst h1
          simp at hrep
      · intro hfe w hw
        rcases List.mem_append.mp hw with h1 | h1
        · exact inv.err_none hfe w h1
        · simp only [List.mem_singleton] at h1
          subst h1
          rintro ⟨h2 | h2, _⟩ <;> simp at h2
      · intro e he
        obtain ⟨r', hr', hd⟩ := inv.err_some e he
        refine ⟨r', ?_, hd⟩
        simp only [List.map_append, List.mem_append]
        exact Or.inl hr'
      · intro err hm
        simp at hm
  | closeEnq hmain =>
      have hsnap := inv.snap
      rw [hmain] at hsnap
      refine ⟨inv.limit_eq, ?_, inv.act, inv.out_le, rfl, inv.rep_ok, inv.err_none,
        inv.err_some, ?_⟩
      · simpa [pendingOf] using hsnap
      · intro err hm
        simp at hm
  | callWait hmain hd =>
      have hsnap := inv.snap
      rw [hmain] at hsnap
      refine ⟨inv.limit_eq, ?_, inv.act, inv.out_le, ?_, inv.rep_ok, inv.err_none,
        inv.err_some, ?_⟩
      · simpa [pendingOf] using hsnap
      · simp [isPastDispatch, hd]
      · intro err hm
        simp at hm
  | finishWait hmain hz =>
      have hsnap := inv.snap
      rw [hmain] at hsnap
      refine ⟨inv.limit_eq, ?_, inv.act, inv.out_le, ?_, inv.rep_ok, inv.err_none,
        inv.err_some, ?_⟩
      · simpa [pendingOf] using hsnap
      · have he := inv.enq
        rw [hmain] at he
        simpa [isPastDispatch] using he
      · intro err hm
        injection hm with h
        exact ⟨h.symm, hz, rfl⟩
  | workerDo l rr r hw =>
      have hmapfst : (l ++ (r, nextPhase (doRes r)) :: rr).map Prod.fst
          = s.workers.map Prod.fst := by
        rw [hw]
        simp
      refine ⟨inv.limit_eq, ?_, ?_, inv.out_le, inv.enq, ?_, ?_, ?_, ?_⟩
      · rw [hmapfst]
        exact inv.snap
      · have ha := inv.act
        rw [hw, countActive_split] at ha
        rw [countActive_split]
        cases hd : doRes r <;> simp [nextPhase] at ha ⊢ <;> omega
      · intro w hw' e hrep
        rcases List.mem_append.mp hw' with h1 | h1
        · exact inv.rep_ok w (by rw [hw]; simp [h1]) e hrep
        · rcases List.mem_cons.mp h1 with h2 | h2
          · subst h2
            cases hd : doRes r with
            | none => simp [nextPhase, hd] at hrep
            | some e' =>
                simp only [nextPhase, hd] at hrep
                injection hrep with h3
                rw [h3]
          · exact inv.rep_ok w (by rw [hw]; simp [h2]) e hrep
      · intro hfe w hw'
        rcases List.mem_append.mp hw' with h1 | h1
        · exact inv.err_none hfe w (by rw [hw]; simp [h1])
        · rcases List.mem_cons.mp h1 with h2 | h2
          · subst h2
            rintro ⟨h3, h4⟩
            cases hd : doRes r with
            | none => exact h4 hd
            | some e' =>
                simp only [nextPhase, hd] at h3
                rcases h3 with h3 | h3 <;> simp at h3
          · exact inv.err_none hfe w (by rw [hw]; simp [h2])
      · intro e he
        obtain ⟨r', hr', hd⟩ := inv.err_some e he
        refine ⟨r', ?_, hd⟩
        rw [hmapfst]
        exact hr'
      · intro err hm
        exact inv.wret err hm
  | workerReport l rr r e hw =>
      have hmapfst : (l ++ (r, WPhase.releasing) :: rr).map Prod.fst
          = s.workers.map Prod.fst := by
        rw [hw]
        simp
      refine ⟨inv.limit_eq, ?_, ?_, inv.out_le, inv.enq, ?_, ?_, ?_, ?_⟩
      · rw [hmapfst]
        exact inv.snap
      · have ha := inv.act
        rw [hw, countActive_split] at ha
        rw [countActive_split]
        simp at ha ⊢
        omega
      · intro w hw' e' hrep
        rcases List.mem_append.mp hw' with h1 | h1
        · exact inv.rep_ok w (by rw [hw]; simp [h1]) e' hrep
        · rcases List.mem_cons.mp h1 with h2 | h2
          · subst h2
            simp at hrep
          · exact inv.rep_ok w (by rw [hw]; simp [h2]) e' hrep
      · intro hfe
        simp at hfe
      · intro e' he'
        injection he' with h1
        cases hfe : s.par.firstErr with
        | none =>
            rw [hfe] at h1
            simp only [Option.getD] at h1
            refine ⟨r, ?_, ?_⟩
            · rw [hmapfst, hw]
              simp
            · rw [← h1]
              exact inv.rep_ok (r, WPhase.reporting e) (by rw [hw]; simp) e rfl
        | some e0 =>
            rw [hfe] at h1
            simp only [Option.getD] at h1
            obtain ⟨r0, hr0, hd0⟩ := inv.err_some e0 hfe
            refine ⟨r0, ?_, ?_⟩
            · rw [hmapfst]
              exact hr0
            · rw [← h1]
              exact hd0
      · intro err hm
        exfalso
        obtain ⟨_, hout, _⟩ := inv.wret err hm
        have ha := inv.act
        rw [hw, countActive_split] at ha
        simp at ha
        omega
  | workerRelease l rr r hw =>
      have hmapfst : (l ++ (r, WPhase.finished) :: rr).map Prod.fst
          = s.workers.map Prod.fst := by
        rw [hw]
        simp
      have ha := inv.act
      rw [hw, countActive_split] at ha
      simp at ha
      refine ⟨inv.limit_eq, ?_, ?_, ?_, inv.enq, ?_, ?_, ?_, ?_⟩
      · rw [hmapfst]
        exact inv.snap
      · rw [countActive_split]
        simp
        omega
      · show s.par.outstanding - 1 ≤ N
        have := inv.out_le
        omega
      · intro w hw' e' hrep
        rcases List.mem_append.mp hw' with h1 | h1
        · exact inv.rep_ok w (by rw [hw]; simp [h1]) e' hrep
        · rcases List.mem_cons.mp h1 with h2 | h2
          · subst h2
            simp at hrep
          · exact inv.rep_ok w (by rw [hw]; simp [h2]) e' hrep
      · intro hfe w hw'
        rcases List.mem_append.mp hw' with h1 | h1
        · exact inv.err_none hfe w (by rw [hw]; simp [h1])
        · rcases List.mem_cons.mp h1 with h2 | h2
          · subst h2
            rintro ⟨_, h4⟩
            exact inv.err_none hfe (r, WPhase.releasing) (by rw [hw]; simp)
              ⟨Or.inl rfl, h4⟩
          · exact inv.err_none hfe w (by rw [hw]; simp [h2])
      · intro e' he'
        obtain ⟨r', hr', hd⟩ := inv.err_some e' he'
        refine ⟨r', ?_, hd⟩
        rw [hmapfst]
        exact hr'
      · intro err hm
        obtain ⟨he, hout, hch⟩ := inv.wret err hm
        exact ⟨he, by omega, hch⟩

lemma runInv_stepE (m0 : Repos) (N : Nat) (doRes : ActionRepo → Option GoError)
    {s s' : ExecState} (inv : RunInv m0 N doRes s) (hs : StepE doRes s s') :
    RunInv m0 N doRes s' := by
  cases hs with
  | core h => exact runInv_step m0 N doRes inv h
  | enqueue r now =>
      exact ⟨inv.limit_eq, inv.snap, inv.act, inv.out_le, inv.enq, inv.rep_ok,
        inv.err_none, inv.err_some, inv.wret⟩

lemma runInv_reachesE (m0 : Repos) (N : Nat) (doRes : ActionRepo → Option GoError)
    {s : ExecState} (h : ReachesE doRes (startState m0 N) s) :
    RunInv m0 N doRes s := by
  induction h with
  | refl => exact runInv_init m0 N doRes
  | tail hab hbc ih => exact runInv_stepE m0 N doRes ih hbc

lemma reaches_reachesE (doRes : ActionRepo → Option GoError) {a b : ExecState}
    (h : Reaches doRes a b) : ReachesE doRes a b :=
  Relation.ReflTransGen.mono (fun _ _ hs => StepE.core hs) h

lemma stepMeasure_decreases (doRes : ActionRepo → Option GoError) {s s' : ExecState}
    (h : Step doRes s s') : stepMeasure s' < stepMeasure s := by
  cases h with
  | dispatch r rest hmain hlt =>
      show mainW (MainPC.dispatching rest) +
          ((s.workers ++ [(r, WPhase.busy)]).map fun w => phaseW w.2).sum <
        mainW s.main + (s.workers.map fun w => phaseW w.2).sum
      rw [hmain]
      simp [mainW, phaseW, List.sum_append]
      omega
  | closeEnq hmain =>
      show mainW MainPC.enqDone + (s.workers.map fun w => phaseW w.2).sum <
        mainW s.main + (s.workers.map fun w => phaseW w.2).sum
      rw [hmain]
      simp [mainW]
  | callWait hmain hd =>
      show mainW MainPC.inWait + (s.workers.map fun w => phaseW w.2).sum <
        mainW s.main + (s.workers.map fun w => phaseW w.2).sum
      rw [hmain]
      simp [mainW]
  | finishWait hmain hz =>
      show mainW (MainPC.waitReturned s.par.firstErr) + (s.workers.map fun w => phaseW w.2).sum <
        mainW s.main + (s.workers.map fun w => phaseW w.2).sum
      rw [hmain]
      simp [mainW]
  | workerDo l rr r hw =>
      show mainW s.main + ((l ++ (r, nextPhase (doRes r)) :: rr).map fun w => phaseW w.2).sum <
        mainW s.main + (s.workers.map fun w => phaseW w.2).sum
      rw [hw]
      cases hd : doRes r <;> simp [nextPhase, phaseW, List.sum_append]
  | workerReport l rr r e hw =>
      show mainW s.main + ((l ++ (r, WPhase.releasing) :: rr).map fun w => phaseW w.2).sum <
        mainW s.main + (s.workers.map fun w => phaseW w.2).sum
      rw [hw]
      simp [phaseW, List.sum_append]
  | workerRelease l rr r hw =>
      show mainW s.main + ((l ++ (r, WPhase.finished) :: rr).map fun w => phaseW w.2).sum <
        mainW s.main + (s.workers.map fun w => phaseW w.2).sum
      rw [hw]
      simp [phaseW, List.sum_append]

lemma no_infinite_steps (doRes : ActionRepo → Option GoError) (f : ℕ → ExecState)
    (hstep : ∀ n, Step doRes (f n) (f (n + 1))) : False := by
  have hdec : ∀ n, stepMeasure (f (n + 1)) < stepMeasure (f n) :=
    fun n => stepMeasure_decreases doRes (hstep n)
  have hle : ∀ n, stepMeasure (f n) + n ≤ stepMeasure (f 0) := by
    intro n
    induction n with
    | zero => omega
    | succ k ih =>
        have := hdec k
        omega
  have := hle (stepMeasure (f 0) + 1)
  omega

lemma active_worker_step (doRes : ActionRepo → Option GoError) {s : ExecState}
    {w : ActionRepo × WPhase} (hw : w ∈ s.workers) (hph : w.2 ≠ WPhase.finished) :
    ∃ s', Step doRes s s' := by
  obtain ⟨l, rr, hsplit⟩ := List.append_of_mem hw
  obtain ⟨r, ph⟩ := w
  cases ph with
  | busy => exact ⟨_, Step.workerDo s l rr r hsplit⟩
  | reporting e => exact ⟨_, Step.workerReport s l rr r e hsplit⟩
  | releasing => exact ⟨_, Step.workerRelease s l rr r hsplit⟩
  | finished => exact absurd rfl hph

lemma exists_active_of_countActive_pos {ws : List (ActionRepo × WPhase)}
    (h : 0 < countActive ws) : ∃ w ∈ ws, w.2 ≠ WPhase.finished := by
  by_contra hc
  push_neg at hc
  have h0 : countActive ws = 0 := by
    simp only [countActive, List.countP_eq_zero]
    intro w hww
    simp [hc w hww]
  omega

lemma stuck_terminal (m0 : Repos) (N : Nat) (doRes : ActionRepo → Option GoError)
    (hN : 0 < N) {s : ExecState} (inv : RunInv m0 N doRes s)
    (hstuck : ∀ s', ¬ Step doRes s s') :
    (∃ err, s.main = MainPC.waitReturned err) ∧ ∀ w ∈ s.workers, w.2 = WPhase.finished := by
  cases hmain : s.main with
  | dispatching pending =>
      exfalso
      cases pending with
      | nil => exact hstuck _ (Step.closeEnq s hmain)
      | cons r rest =>
          by_cases hlt : s.par.outstanding < s.par.limit
          · exact hstuck _ (Step.dispatch s r rest hmain hlt)
          · have hout : 0 < s.par.outstanding := by
              have := inv.limit_eq
              omega
            have hpos : 0 < countActive s.workers := by
              rw [inv.act]
              exact hout
            obtain ⟨w, hw, hph⟩ := exists_active_of_countActive_pos hpos
            obtain ⟨s', hs'⟩ := active_worker_step doRes hw hph
            exact hstuck s' hs'
  | enqDone =>
      exfalso
      refine hstuck _ (Step.callWait s hmain ?_)
      rw [inv.enq, hmain]
      rfl
  | inWait =>
      exfalso
      by_cases hz : s.par.outstanding = 0
      · exact hstuck _ (Step.finishWait s hmain hz)
      · have hpos : 0 < countActive s.workers := by
          rw [inv.act]
          omega
        obtain ⟨w, hw, hph⟩ := exists_active_of_countActive_pos hpos
        obtain ⟨s', hs'⟩ := active_worker_step doRes hw hph
        exact hstuck s' hs'
  | waitReturned err =>
      refine ⟨⟨err, rfl⟩, ?_⟩
      obtain ⟨_, hout, _⟩ := inv.wret err hmain
      have h0 : countActive s.workers = 0 := by
        rw [inv.act]
        exact hout
      simp only [countActive, List.countP_eq_zero] at h0
      intro w hw
      have := h0 w hw
      simpa using this

lemma chain1 : Reaches doNone (startState m1 1) sfin1 := by
  show Relation.ReflTransGen (Step doNone) (startState m1 1) sfin1
  refine Relation.ReflTransGen.head (Step.dispatch _ "a" [] rfl (by decide)) ?_
  refine Relation.ReflTransGen.head (Step.closeEnq _ rfl) ?_
  refine Relation.ReflTransGen.head (Step.callWait _ rfl rfl) ?_
  refine Relation.ReflTransGen.head (Step.workerDo _ [] [] "a" rfl) ?_
  refine Relation.ReflTransGen.head (Step.workerRelease _ [] [] "a" rfl) ?_
  refine Relation.ReflTransGen.head (Step.finishWait _ rfl rfl) ?_
  exact Relation.ReflTransGen.refl

lemma chain1E : ReachesE doNone (startState m1 1) sfin1 :=
  reaches_reachesE doNone chain1

lemma chain1c : ReachesE doNone (startState m1 1) sfin1c := by
  show Relation.ReflTransGen (StepE doNone) (startState m1 1) sfin1c
  refine Relation.ReflTransGen.head (StepE.core (Step.dispatch _ "a" [] rfl (by decide))) ?_
  refine Relation.ReflTransGen.head (StepE.enqueue _ "c" 7) ?_
  refine Relation.ReflTransGen.head (StepE.core (Step.closeEnq _ rfl)) ?_
  refine Relation.ReflTransGen.head (StepE.core (Step.callWait _ rfl rfl)) ?_
  refine Relation.ReflTransGen.head (StepE.core (Step.workerDo _ [] [] "a" rfl)) ?_
  refine Relation.ReflTransGen.head (StepE.core (Step.workerRelease _ [] [] "a" rfl)) ?_
  refine Relation.ReflTransGen.head (StepE.core (Step.finishWait _ rfl rfl)) ?_
  exact Relation.ReflTransGen.refl

lemma chain2 : ReachesE doAB (startState m2 2) sfin2 := by
  show Relation.ReflTransGen (StepE doAB) (startState m2 2) sfin2
  refine Relation.ReflTransGen.head (StepE.core (Step.dispatch _ "a" ["b"] rfl (by decide))) ?_
  refine Relation.ReflTransGen.head (StepE.core (Step.dispatch _ "b" [] rfl (by decide))) ?_
  refine Relation.ReflTransGen.head (StepE.core (Step.closeEnq _ rfl)) ?_
  refine Relation.ReflTransGen.head (StepE.core (Step.callWait _ rfl rfl)) ?_
  refine Relation.ReflTransGen.head (StepE.core (Step.workerDo _ [] [("b", WPhase.busy)] "a" rfl)) ?_
  refine Relation.ReflTransGen.head
    (StepE.core (Step.workerReport _ [] [("b", WPhase.busy)] "a" "boom" rfl)) ?_
  refine Relation.ReflTransGen.head
    (StepE.core (Step.workerRelease _ [] [("b", WPhase.busy)] "a" rfl)) ?_
  refine Relation.ReflTransGen.head
    (StepE.core (Step.workerDo _ [("a", WPhase.finished)] [] "b" rfl)) ?_
  refine Relation.ReflTransGen.head
    (StepE.core (Step.workerRelease _ [("a", WPhase.finished)] [] "b" rfl)) ?_
  refine Relation.ReflTransGen.head (StepE.core (Step.finishWait _ rfl rfl)) ?_
  exact Relation.ReflTransGen.refl

lemma countBusy_le_countActive (ws : List (ActionRepo × WPhase)) :
    countBusy ws ≤ countActive ws := by
  induction ws with
  | nil => simp [countBusy, countActive]
  | cons w rest ih =>
      have e1 : countBusy (w :: rest) = countBusy rest + (if w.2 = WPhase.busy then 1 else 0) := by
        by_cases hb : w.2 = WPhase.busy <;> simp [countBusy, List.countP_cons, hb]
      have e2 : countActive (w :: rest) =
          countActive rest + (if w.2 = WPhase.finished then 0 else 1) := by
        by_cases hf : w.2 = WPhase.finished <;> simp [countActive, List.countP_cons, hf]
      have e3 : (if w.2 = WPhase.busy then 1 else 0) ≤
          (if w.2 = WPhase.finished then 0 else 1) := by
        cases h2 : w.2 <;> simp
      rw [e1, e2]
      omega

/-- C3: for every run dispatched by `start`, when the run has completed (the
caller returned from `wait`), every dispatched repository's operation ran to
completion regardless of sibling failures — the workers cover exactly the
snapshotted keys and all are terminal — and if `do` returned a non-nil error
for some dispatched repository then the error aggregate returned by `wait` is
non-nil, and any aggregated error is one actually produced by a dispatched
repository's `do`. -/
theorem do_error_isolated (m0 : Repos) (N : Nat) (doRes : ActionRepo → Option GoError)
    (s : ExecState) (err : Option GoError)
    (h : ReachesE doRes (startState m0 N) s) (hm : s.main = MainPC.waitReturned err) :
    (∀ w ∈ s.workers, w.2 = WPhase.finished) ∧
    s.workers.map Prod.fst = keysOf m0 ∧
    (∀ r ∈ keysOf m0, doRes r ≠ none → err ≠ none) ∧
    (∀ e, err = some e → ∃ r ∈ keysOf m0, doRes r = some e) := by
  have inv := runInv_reachesE m0 N doRes h
  obtain ⟨herr, hout, hch⟩ := inv.wret err hm
  have hall : ∀ w ∈ s.workers, w.2 = WPhase.finished := by
    have h0 : countActive s.workers = 0 := by
      rw [inv.act]
      exact hout
    simp only [countActive, List.countP_eq_zero] at h0
    intro w hw
    have := h0 w hw
    simpa using this
  have hcov : s.workers.map Prod.fst = keysOf m0 := by
    have hs := inv.snap
    rw [hm] at hs
    simpa [pendingOf] using hs
  refine ⟨hall, hcov, ?_, ?_⟩
  · intro r hr hd hen
    rw [← hcov] at hr
    obtain ⟨w, hww, hw1⟩ := List.mem_map.mp hr
    rw [hen] at herr
    exact inv.err_none herr.symm w hww ⟨Or.inr (hall w hww), by rw [hw1]; exact hd⟩
  · intro e he
    rw [he] at herr
    obtain ⟨r, hr, hd⟩ := inv.err_some e herr.symm
    rw [hcov] at hr
    exact ⟨r, hr, hd⟩

/-- C3 witness: the two-repository run in which repository a fails with boom
and repository b succeeds; both workers finish and wait's aggregate error is
non-nil. -/
theorem do_error_isolated_witness :
    sfin2.workers.map Prod.fst = keysOf m2 ∧ (some "boom" : Option GoError) ≠ none :=
  ⟨(do_error_isolated m2 2 doAB sfin2 (some "boom") chain2 rfl).2.1,
    (do_error_isolated m2 2 doAB sfin2 (some "boom") chain2 rfl).2.2.1 "a" (by decide)
      (by decide)⟩

/-- C4 counterexample: on a freshly constructed executor — so before any
repository is enqueued and before `start` is called — `wait()` blocks on the
`doneEnqueuing` receive instead of returning immediately with no error, since
only `start` closes that channel and `enqueueRepo` never touches it. -/
theorem wait_before_start_blocks :
    waitFn newExecutorWaitView = WaitOutcome.blocks := rfl

/-- C4 amended: `wait()` returns only after `start()`'s dispatch loop has
issued all work items and every issued work item has reached a terminal
status, returning the first error recorded by the concurrency primitive or
nil; calling `wait()` after `start()` when no repository was enqueued returns
immediately with no error; calling `wait()` before `start()` blocks on the
`doneEnqueuing` receive rather than returning. -/
theorem wait_returns_after_all_work (m0 : Repos) (N : Nat)
    (doRes : ActionRepo → Option GoError) (s : ExecState) (err : Option GoError)
    (h : ReachesE doRes (startState m0 N) s) (hm : s.main = MainPC.waitReturned err) :
    (s.doneEnqueuing = true ∧ s.doneCh = true ∧ (∀ w ∈ s.workers, w.2 = WPhase.finished) ∧
      s.workers.map Prod.fst = keysOf m0 ∧ err = s.par.firstErr) ∧
    (∃ s', ReachesE doRes (startState [] N) s' ∧ s'.main = MainPC.waitReturned none) ∧
    waitFn newExecutorWaitView = WaitOutcome.blocks := by
  have inv := runInv_reachesE m0 N doRes h
  obtain ⟨herr, hout, hch⟩ := inv.wret err hm
  have hall : ∀ w ∈ s.workers, w.2 = WPhase.finished := by
    have h0 : countActive s.workers = 0 := by
      rw [inv.act]
      exact hout
    simp only [countActive, List.countP_eq_zero] at h0
    intro w hw
    have := h0 w hw
    simpa using this
  have hcov : s.workers.map Prod.fst = keysOf m0 := by
    have hs := inv.snap
    rw [hm] at hs
    simpa [pendingOf] using hs
  have henq : s.doneEnqueuing = true := by
    rw [inv.enq, hm]
    rfl
  refine ⟨⟨henq, hch, hall, hcov, herr⟩, ?_, rfl⟩
  refine ⟨sfinEmpty N, ?_, rfl⟩
  show Relation.ReflTransGen (StepE doRes) _ _
  refine Relation.ReflTransGen.head (StepE.core (Step.closeEnq _ rfl)) ?_
  refine Relation.ReflTransGen.head (StepE.core (Step.callWait _ rfl rfl)) ?_
  refine Relation.ReflTransGen.head (StepE.core (Step.finishWait _ rfl rfl)) ?_
  exact Relation.ReflTransGen.refl

/-- C4 amended witness: the completed one-repository run; both completion
channels are closed, the dispatched worker is terminal, and the returned
error is the primitive's first recorded error (here nil). -/
theorem wait_returns_after_all_work_witness :
    sfin1.doneEnqueuing = true ∧ sfin1.doneCh = true ∧
    sfin1.workers.map Prod.fst = keysOf m1 ∧ (none : Option GoError) = sfin1.par.firstErr :=
  ⟨(wait_returns_after_all_work m1 1 doNone sfin1 none chain1E rfl).1.1,
    (wait_returns_after_all_work m1 1 doNone sfin1 none chain1E rfl).1.2.1,
    (wait_returns_after_all_work m1 1 doNone sfin1 none chain1E rfl).1.2.2.2.1,
    (wait_returns_after_all_work m1 1 doNone sfin1 none chain1E rfl).1.2.2.2.2⟩

/-- C5: in every state reachable from `start`'s snapshot, the dispatched
workers followed by the still-pending keys are exactly the snapshotted key
list, so each snapshotted repository is dispatched exactly once (the
dispatched keys are duplicate-free whenever the snapshot is), a repository
absent from the snapshot — in particular one enqueued only after the
snapshot — is never dispatched by this run, and when `wait` has returned the
dispatched keys are exactly the snapshot. -/
theorem start_dispatch_snapshot (m0 : Repos) (N : Nat)
    (doRes : ActionRepo → Option GoError) (s : ExecState)
    (h : ReachesE doRes (startState m0 N) s) :
    s.workers.map Prod.fst ++ pendingOf s.main = keysOf m0 ∧
    ((keysOf m0).Nodup → (s.workers.map Prod.fst).Nodup) ∧
    (∀ r, r ∉ keysOf m0 → r ∉ s.workers.map Prod.fst) ∧
    (∀ err, s.main = MainPC.waitReturned err → s.workers.map Prod.fst = keysOf m0) := by
  have inv := runInv_reachesE m0 N doRes h
  have hs := inv.snap
  refine ⟨hs, ?_, ?_, ?_⟩
  · intro hnd
    rw [← hs] at hnd
    exact hnd.of_append_left
  · intro r hr hmem
    apply hr
    rw [← hs]
    exact List.mem_append.mpr (Or.inl hmem)
  · intro err hm
    rw [hm] at hs
    simpa [pendingOf] using hs

/-- C5 witness: the one-repository run in which repository c was enqueued
after the snapshot: the dispatch record covers exactly the snapshot key a,
without duplicates, and never includes c. -/
theorem start_dispatch_snapshot_witness :
    sfin1c.workers.map Prod.fst ++ pendingOf sfin1c.main = keysOf m1 ∧
    (sfin1c.workers.map Prod.fst).Nodup ∧
    "c" ∉ sfin1c.workers.map Prod.fst :=
  ⟨(start_dispatch_snapshot m1 1 doNone sfin1c chain1c).1,
    (start_dispatch_snapshot m1 1 doNone sfin1c chain1c).2.1 (by decide),
    (start_dispatch_snapshot m1 1 doNone sfin1c chain1c).2.2.1 "c" (by decide)⟩

/-- C7: with parallelism limit N at construction, in every reachable state at
most N per-repository operations run concurrently; no infinite run of steps
exists; and every reachable state from which no step is possible is terminal:
all snapshotted repositories were dispatched and every dispatched worker has
finished — so all dispatched repositories eventually reach a terminal
status. -/
theorem bounded_parallelism_and_termination (m0 : Repos) (N : Nat)
    (doRes : ActionRepo → Option GoError) (hN : 0 < N) :
    (∀ s, Reaches doRes (startState m0 N) s → countBusy s.workers ≤ N) ∧
    (∀ f : ℕ → ExecState, (∀ n, Step doRes (f n) (f (n + 1))) → False) ∧
    (∀ s, Reaches doRes (startState m0 N) s → (∀ s', ¬ Step doRes s s') →
      s.workers.map Prod.fst = keysOf m0 ∧ ∀ w ∈ s.workers, w.2 = WPhase.finished) := by
  refine ⟨?_, ?_, ?_⟩
  · intro s hre
    have inv := runInv_reachesE m0 N doRes (reaches_reachesE doRes hre)
    have h1 := countBusy_le_countActive s.workers
    rw [inv.act] at h1
    have h2 := inv.out_le
    omega
  · exact fun f hf => no_infinite_steps doRes f hf
  · intro s hre hstuck
    have inv := runInv_reachesE m0 N doRes (reaches_reachesE doRes hre)
    obtain ⟨⟨err, hmain⟩, hfin⟩ := stuck_terminal m0 N doRes hN inv hstuck
    refine ⟨?_, hfin⟩
    have hs := inv.snap
    rw [hmain] at hs
    simpa [pendingOf] using hs

/-- C10: `wait()` may be called at most once: a first call on a state whose
`done` channel is still open returns the recorded first error and closes the
channel, and a second call then panics, because `close` of an already closed
channel panics. -/
theorem wait_twice_panics (v : WaitView) (h1 : v.doneEnqueuingClosed = true)
    (h2 : v.parOutstanding = 0) (h3 : v.doneClosed = false) :
    waitFn v = WaitOutcome.returns v.parFirstErr { v with doneClosed := true } ∧
    waitFn { v with doneClosed := true } = WaitOutcome.panics := by
  obtain ⟨a, b, c, d⟩ := v
  dsimp at h1 h2 h3
  subst h1
  subst h2
  subst h3
  constructor <;> rfl

/-- C10 witness: the post-run state with no permits outstanding and no
recorded error: the first wait returns nil, the second panics. -/
theorem wait_twice_panics_witness :
    waitFn ⟨true, 0, none, false⟩ = WaitOutcome.returns none ⟨true, 0, none, true⟩ ∧
    waitFn ⟨true, 0, none, true⟩ = WaitOutcome.panics :=
  wait_twice_panics ⟨true, 0, none, false⟩ rfl rfl rfl

lemma noStepFromSfin1 (s' : ExecState) : ¬ Step doNone sfin1 s' := by
  intro h
  cases h with
  | dispatch r rest hmain hlt => simp [sfin1] at hmain
  | closeEnq hmain => simp [sfin1] at hmain
  | callWait hmain hd => simp [sfin1] at hmain
  | finishWait hmain hz => simp [sfin1] at hmain
  | workerDo l rr r hw =>
      have hmem : (r, WPhase.busy) ∈ sfin1.workers := by
        rw [hw]
        simp
      simp [sfin1] at hmem
  | workerReport l rr r e hw =>
      have hmem : (r, WPhase.reporting e) ∈ sfin1.workers := by
        rw [hw]
        simp
      simp [sfin1] at hmem
  | workerRelease l rr r hw =>
      have hmem : (r, WPhase.releasing) ∈ sfin1.workers := by
        rw [hw]
        simp
      simp [sfin1] at hmem

/-- C7 witness: the completed one-repository run with parallelism limit 1: at
most one operation was ever running, and in its stuck terminal state the
dispatched workers are exactly the snapshot. -/
theorem bounded_parallelism_and_termination_witness :
    countBusy sfin1.workers ≤ 1 ∧ sfin1.workers.map Prod.fst = keysOf m1 :=
  ⟨(bounded_parallelism_and_termination m1 1 doNone (by decide)).1 sfin1 chain1,
    ((bounded_parallelism_and_termination m1 1 doNone (by decide)).2.2 sfin1 chain1
      noStepFromSfin1).1⟩
